import Mathlib

/-!
# hw_fifo: the clocked circular-buffer FIFO of `src/main.cpp`

A shallow embedding of the class `hw_fifo<T>` (lines 90-146 of `src/main.cpp`):
its constructor and one iteration of the `while(1)` loop of `fifo_process`,
which the clocked thread executes once per rising clock edge.

* The members `_size`, `_first`, `_items` are C++ `unsigned`; they are natural
  numbers here and every arithmetic operation of the source is reduced modulo
  `UINT_RANGE = 2^32`.
* The heap array `_data` is a map from slot index to value.  `new T[_size]`
  leaves the slots of a builtin type indeterminate, so the initial contents are
  an argument of the constructor.
* The three output ports are fields of the state: they hold the value most
  recently written to them, which is what the peers see at the next tick.
* `assert(size > 0)` makes the constructor fallible: it returns `none` when the
  assertion fails.

The handshake results hold for every capacity an `unsigned` can hold.  The
FIFO-order results hold for capacities up to `2^31`; above that `_first + _items`
can wrap around `2^32`, and the last section evaluates the code on such a run.
-/

namespace HwFifo

/-- Number of values of the C++ type `unsigned` (32 bits). -/
def UINT_RANGE : Nat := 4294967296

/-- State of `hw_fifo<T>`: the data members and the values on the output ports. -/
structure hw_fifo (T : Type) where
  _size : Nat
  _first : Nat
  _items : Nat
  _data : Nat → T
  ready_out : Bool
  data_out : T
  valid_out : Bool

/-- Values of the three input ports sampled at one clock tick. -/
structure Inputs (T : Type) where
  valid_in : Bool
  data_in : T
  ready_in : Bool

/-- Array store `a[i] = v`. -/
def store {T : Type} (a : Nat → T) (i : Nat) (v : T) : Nat → T :=
  fun k => if k = i then v else a k

/-- Constructor `hw_fifo(nm, size)`, lines 106-115.  `assert(size > 0)` rejects the
construction; otherwise `_first = _items = 0`, `ready_out` is initialised to true
and `valid_out` to false.  `mem` is the content of the fresh allocation and `dout`
the value the `data_out` signal holds before the first tick. -/
def hw_fifo.ctor {T : Type} (size : Nat) (mem : Nat → T) (dout : T) : Option (hw_fifo T) :=
  if size > 0 then
    some { _size := size, _first := 0, _items := 0, _data := mem,
           ready_out := true, data_out := dout, valid_out := false }
  else none

/-- Slot index used by the store of line 130: `(_first + _items) % _size` on `unsigned`. -/
def write_index {T : Type} (s : hw_fifo T) : Nat :=
  ((s._first + s._items) % UINT_RANGE) % s._size

/-- Lines 127-132: the write branch of one tick. -/
def write_step {T : Type} (s : hw_fifo T) (i : Inputs T) (writable : Bool) : hw_fifo T :=
  if i.valid_in && writable then
    { s with _data := store s._data (write_index s) i.data_in,
             _items := (s._items + 1) % UINT_RANGE }
  else s

/-- Lines 133-138: the read branch of one tick. -/
def read_step {T : Type} (s : hw_fifo T) (i : Inputs T) (readable : Bool) : hw_fifo T :=
  if i.ready_in && readable then
    { s with _items := (s._items + UINT_RANGE - 1) % UINT_RANGE,
             _first := ((s._first + 1) % UINT_RANGE) % s._size }
  else s

/-- Lines 139-142: drive the three output ports from the updated state. -/
def drive_outputs {T : Type} (s : hw_fifo T) : hw_fifo T :=
  { s with ready_out := decide (s._items < s._size),
           valid_out := decide (s._items > 0),
           data_out := s._data s._first }

/-- One iteration of the loop of `fifo_process` (lines 125-143), i.e. one clock tick.
`writable` and `readable` are both computed from the count at the start of the tick. -/
def fifo_process {T : Type} (s : hw_fifo T) (i : Inputs T) : hw_fifo T :=
  let writable := decide (s._items < s._size)
  let readable := decide (s._items > 0)
  drive_outputs (read_step (write_step s i writable) i readable)

/-- The state after a finite sequence of ticks. -/
def run {T : Type} (s : hw_fifo T) : List (Inputs T) → hw_fifo T
  | [] => s
  | i :: is => run (fifo_process s i) is

/-- The write of a tick is accepted: `valid_in` and `count < capacity` at tick start. -/
def write_accepted {T : Type} (s : hw_fifo T) (i : Inputs T) : Bool :=
  i.valid_in && decide (s._items < s._size)

/-- The read of a tick is accepted: `ready_in` and `count > 0` at tick start. -/
def read_accepted {T : Type} (s : hw_fifo T) (i : Inputs T) : Bool :=
  i.ready_in && decide (s._items > 0)

/-- The `data_in` values of the ticks whose write is accepted, in tick order. -/
def accepted_writes {T : Type} (s : hw_fifo T) : List (Inputs T) → List T
  | [] => []
  | i :: is =>
    (if write_accepted s i then [i.data_in] else []) ++ accepted_writes (fifo_process s i) is

/-- The head-slot values of the ticks whose read is accepted, in tick order. -/
def accepted_reads {T : Type} (s : hw_fifo T) : List (Inputs T) → List T
  | [] => []
  | i :: is =>
    (if read_accepted s i then [s._data s._first] else []) ++ accepted_reads (fifo_process s i) is

/-- The `j`-th occupied slot counted from the head, in circular order. -/
def slot {T : Type} (s : hw_fifo T) (j : Nat) : Nat := (s._first + j) % s._size

/-- The `_items` stored values read from the head in circular order. -/
def contents {T : Type} (s : hw_fifo T) : List T :=
  (List.range s._items).map (fun j => s._data (slot s j))

/-- The accepted writes that no accepted read has consumed yet, oldest first. -/
def pending {T : Type} (s : hw_fifo T) (is : List (Inputs T)) : List T :=
  (accepted_writes s is).drop (accepted_reads s is).length

/-- State invariant: the fields fit in `unsigned`, the capacity is positive, the head
is a valid slot and the count does not exceed the capacity. -/
def Inv {T : Type} (s : hw_fifo T) : Prop :=
  0 < s._size ∧ s._size < UINT_RANGE ∧ s._first < s._size ∧ s._items ≤ s._size

/-- The values at `items` consecutive slots starting at `first`, in circular order. -/
def contentsOf {T : Type} (size first items : Nat) (data : Nat → T) : List T :=
  (List.range items).map (fun j => data ((first + j) % size))

/-- Largest capacity for which `_first + _items` cannot exceed the range of `unsigned`. -/
def NOWRAP_MAX : Nat := 2147483648

/-- The state `hw_fifo<int>("f", 4294967295)` constructs on zeroed memory. -/
def big_fifo : hw_fifo Int :=
  { _size := 4294967295, _first := 0, _items := 0, _data := fun _ => 0,
    ready_out := true, data_out := 0, valid_out := false }

/-- A tick that offers the value `0` and asks for a read. -/
def pass_tick : Inputs Int := ⟨true, 0, true⟩

/-- One write of `0`, then `n` ticks that write `0` and read, then a write of `1`. -/
def wrap_fill (n : Nat) : List (Inputs Int) :=
  ⟨true, 0, false⟩ :: (List.replicate n pass_tick ++ [⟨true, 1, false⟩])

/-- The run `wrap_fill n` followed by a write of `2`. -/
def wrap_ticks (n : Nat) : List (Inputs Int) := wrap_fill n ++ [⟨true, 2, false⟩]

/-- The run `wrap_ticks n` followed by a read. -/
def wrap_read_ticks (n : Nat) : List (Inputs Int) := wrap_ticks n ++ [⟨false, 0, true⟩]

/-- The state `hw_fifo<int>("f", 2)` constructs on zeroed memory. -/
def fifo2 : hw_fifo Int :=
  { _size := 2, _first := 0, _items := 0, _data := fun _ => 0,
    ready_out := true, data_out := 0, valid_out := false }

/-- The state `hw_fifo<int>("adder_out", 1)` of `sc_main` constructs on zeroed memory. -/
def fifo1 : hw_fifo Int :=
  { _size := 1, _first := 0, _items := 0, _data := fun _ => 0,
    ready_out := true, data_out := 0, valid_out := false }

/-- The output ports agree with the count: what every tick and the constructor establish. -/
def OutInv {T : Type} (s : hw_fifo T) : Prop :=
  s.ready_out = decide (s._items < s._size) ∧ s.valid_out = decide (s._items > 0)

/-- A state is reachable when a run of ticks leads to it from a successful construction
whose capacity fits in an `unsigned`. -/
def Reachable {T : Type} (s : hw_fifo T) : Prop :=
  ∃ (size : Nat) (mem : Nat → T) (dout : T) (s0 : hw_fifo T) (ins : List (Inputs T)),
    size < UINT_RANGE ∧ hw_fifo.ctor size mem dout = some s0 ∧ run s0 ins = s

/-- A capacity-1 FIFO that holds `v` and shows it on its outputs. -/
def Holds {T : Type} (s : hw_fifo T) (v : T) : Prop :=
  s._size = 1 ∧ s._first = 0 ∧ s._items = 1 ∧ s._data 0 = v ∧
    s.ready_out = false ∧ s.valid_out = true ∧ s.data_out = v

/-- A capacity-4294967295 state with head 4294967294 and count 2, as reached by
`wrap_fill 4294967294`. -/
def wrapped_state : hw_fifo Int :=
  { _size := 4294967295, _first := 4294967294, _items := 2,
    _data := fun k => if k = 0 then 1 else 0,
    ready_out := true, data_out := 0, valid_out := true }

/-! ## Field-wise description of one tick -/

theorem fifo_process_size {T : Type} (s : hw_fifo T) (i : Inputs T) :
    (fifo_process s i)._size = s._size := by
  by_cases hw : (i.valid_in && decide (s._items < s._size)) = true <;>
    by_cases hr : (i.ready_in && decide (s._items > 0)) = true <;>
    simp only [fifo_process, drive_outputs, read_step, write_step, hw, hr, if_true, if_false] <;>
    simp

theorem fifo_process_data {T : Type} (s : hw_fifo T) (i : Inputs T) :
    (fifo_process s i)._data =
      if write_accepted s i then store s._data (write_index s) i.data_in else s._data := by
  by_cases hw : (i.valid_in && decide (s._items < s._size)) = true <;>
    by_cases hr : (i.ready_in && decide (s._items > 0)) = true <;>
    simp only [fifo_process, drive_outputs, read_step, write_step, write_accepted, hw, hr,
      if_true, if_false] <;>
    simp

theorem fifo_process_items {T : Type} (s : hw_fifo T) (i : Inputs T) (h : Inv s) :
    (fifo_process s i)._items =
      s._items + (if write_accepted s i then 1 else 0) - (if read_accepted s i then 1 else 0) := by
  obtain ⟨h0, h1, h2, h3⟩ := h
  unfold UINT_RANGE at h1
  by_cases hw : (i.valid_in && decide (s._items < s._size)) = true <;>
    by_cases hr : (i.ready_in && decide (s._items > 0)) = true <;>
    simp only [fifo_process, drive_outputs, read_step, write_step, write_accepted, read_accepted,
      UINT_RANGE, hw, hr, if_true, if_false, Bool.false_eq_true] <;>
    simp at hw hr <;> omega

theorem fifo_process_first {T : Type} (s : hw_fifo T) (i : Inputs T) (h : Inv s) :
    (fifo_process s i)._first =
      if read_accepted s i then (s._first + 1) % s._size else s._first := by
  obtain ⟨h0, h1, h2, h3⟩ := h
  unfold UINT_RANGE at h1
  have hf : (s._first + 1) % 4294967296 = s._first + 1 := Nat.mod_eq_of_lt (by omega)
  by_cases hw : (i.valid_in && decide (s._items < s._size)) = true <;>
    by_cases hr : (i.ready_in && decide (s._items > 0)) = true <;>
    simp only [fifo_process, drive_outputs, read_step, write_step, write_accepted, read_accepted,
      UINT_RANGE, hw, hr, if_true, if_false, Bool.false_eq_true, hf]

theorem fifo_process_outputs {T : Type} (s : hw_fifo T) (i : Inputs T) :
    (fifo_process s i).ready_out = decide ((fifo_process s i)._items < (fifo_process s i)._size) ∧
    (fifo_process s i).valid_out = decide ((fifo_process s i)._items > 0) ∧
    (fifo_process s i).data_out = (fifo_process s i)._data (fifo_process s i)._first := by
  unfold fifo_process drive_outputs
  exact ⟨rfl, rfl, rfl⟩

/-! ## The state invariant -/

theorem Inv_fifo_process {T : Type} (s : hw_fifo T) (i : Inputs T) (h : Inv s) :
    Inv (fifo_process s i) := by
  have hi := fifo_process_items s i h
  have hf := fifo_process_first s i h
  have hz := fifo_process_size s i
  obtain ⟨h0, h1, h2, h3⟩ := h
  have hm : (s._first + 1) % s._size < s._size := Nat.mod_lt _ h0
  unfold Inv
  rw [hz, hi, hf]
  refine ⟨h0, h1, ?_, ?_⟩
  · split <;> omega
  · unfold write_accepted read_accepted
    by_cases hw : (i.valid_in && decide (s._items < s._size)) = true <;>
      by_cases hr : (i.ready_in && decide (s._items > 0)) = true <;>
      simp only [hw, hr, if_true, if_false, Bool.false_eq_true] <;>
      simp at hw hr <;> omega

theorem run_size {T : Type} (is : List (Inputs T)) (s : hw_fifo T) :
    (run s is)._size = s._size := by
  induction is generalizing s with
  | nil => rfl
  | cons i is ih => simp only [run, ih, fifo_process_size]

theorem Inv_run {T : Type} (is : List (Inputs T)) (s : hw_fifo T) (h : Inv s) :
    Inv (run s is) := by
  induction is generalizing s with
  | nil => exact h
  | cons i is ih => exact ih _ (Inv_fifo_process s i h)

theorem ctor_eq_some {T : Type} {size : Nat} {mem : Nat → T} {dout : T} {s : hw_fifo T}
    (h : hw_fifo.ctor size mem dout = some s) :
    0 < size ∧ s = { _size := size, _first := 0, _items := 0, _data := mem,
                     ready_out := true, data_out := dout, valid_out := false } := by
  unfold hw_fifo.ctor at h
  split at h
  · rename_i hpos
    exact ⟨hpos, (Option.some.inj h).symm⟩
  · exact absurd h (by simp)

theorem Inv_ctor {T : Type} {size : Nat} {mem : Nat → T} {dout : T} {s : hw_fifo T}
    (hs : size < UINT_RANGE) (h : hw_fifo.ctor size mem dout = some s) : Inv s := by
  obtain ⟨hpos, rfl⟩ := ctor_eq_some h
  exact ⟨hpos, hs, hpos, Nat.zero_le _⟩

theorem run_append {T : Type} (is js : List (Inputs T)) (s : hw_fifo T) :
    run s (is ++ js) = run (run s is) js := by
  induction is generalizing s with
  | nil => rfl
  | cons i is ih => exact ih (fifo_process s i)

theorem accepted_writes_append {T : Type} (is js : List (Inputs T)) (s : hw_fifo T) :
    accepted_writes s (is ++ js) = accepted_writes s is ++ accepted_writes (run s is) js := by
  induction is generalizing s with
  | nil => rfl
  | cons i is ih =>
    show _ ++ accepted_writes (fifo_process s i) (is ++ js) = _
    rw [ih]; simp only [accepted_writes, run, List.append_assoc]

theorem accepted_reads_append {T : Type} (is js : List (Inputs T)) (s : hw_fifo T) :
    accepted_reads s (is ++ js) = accepted_reads s is ++ accepted_reads (run s is) js := by
  induction is generalizing s with
  | nil => rfl
  | cons i is ih =>
    show _ ++ accepted_reads (fifo_process s i) (is ++ js) = _
    rw [ih]; simp only [accepted_reads, run, List.append_assoc]

/-! ## Circular indexing -/

theorem mod_add_ne {n f j k : Nat} (hjk : j < k) (hk : k < j + n) :
    (f + j) % n ≠ (f + k) % n := by
  intro h
  have h1 : ((f + k) - (f + j)) % n = 0 := Nat.sub_mod_eq_zero_of_mod_eq h.symm
  have h2 : (f + k) - (f + j) = k - j := by omega
  rw [h2] at h1
  have h3 : n ∣ k - j := Nat.dvd_of_mod_eq_zero h1
  have h4 := Nat.le_of_dvd (by omega) h3
  omega

theorem contents_eq {T : Type} (s : hw_fifo T) :
    contents s = contentsOf s._size s._first s._items s._data := rfl

theorem contentsOf_push {T : Type} (size first items : Nat) (data : Nat → T) (d : T)
    (h : items < size) :
    contentsOf size first (items + 1) (store data ((first + items) % size) d) =
      contentsOf size first items data ++ [d] := by
  unfold contentsOf
  rw [List.range_succ, List.map_append]
  congr 1
  · apply List.map_congr_left
    intro j hj
    have hj2 : j < items := List.mem_range.mp hj
    have hne : (first + j) % size ≠ (first + items) % size := mod_add_ne hj2 (by omega)
    simp [store, hne]
  · simp [store]

theorem contentsOf_pop {T : Type} (size first items : Nat) (data : Nat → T)
    (h : 0 < items) (hf : first < size) :
    contentsOf size first items data =
      data first :: contentsOf size ((first + 1) % size) (items - 1) data := by
  obtain ⟨m, rfl⟩ : ∃ m, items = m + 1 := ⟨items - 1, by omega⟩
  unfold contentsOf
  rw [List.range_succ_eq_map]
  simp only [List.map_cons, List.map_map, Nat.add_zero, Nat.mod_eq_of_lt hf, Nat.add_sub_cancel]
  congr 1
  apply List.map_congr_left
  intro j _
  simp only [Function.comp, Nat.succ_eq_add_one]
  rw [Nat.mod_add_mod]
  congr 2
  omega

/-! ## FIFO order for capacities up to `2^31` -/

theorem write_index_exact {T : Type} (s : hw_fifo T) (h : s._first + s._items < UINT_RANGE) :
    write_index s = (s._first + s._items) % s._size := by
  unfold write_index
  rw [Nat.mod_eq_of_lt h]

theorem contents_fifo_process {T : Type} (s : hw_fifo T) (i : Inputs T) (h : Inv s)
    (hc : s._size ≤ NOWRAP_MAX) :
    contents s ++ (if write_accepted s i then [i.data_in] else []) =
      (if read_accepted s i then [s._data s._first] else []) ++ contents (fifo_process s i) := by
  have hi := fifo_process_items s i h
  have hf := fifo_process_first s i h
  have hz := fifo_process_size s i
  have hd := fifo_process_data s i
  obtain ⟨h0, h1, h2, h3⟩ := h
  unfold NOWRAP_MAX at hc
  unfold UINT_RANGE at h1
  rw [contents_eq, contents_eq, hz, hi, hf, hd]
  by_cases hw : write_accepted s i = true <;> by_cases hr : read_accepted s i = true <;>
    simp only [hw, hr, if_true, if_false, Bool.false_eq_true, List.append_nil, List.nil_append,
      Nat.add_zero, Nat.sub_zero, List.singleton_append]
  · -- write and read
    have hlt : s._items < s._size := by
      have := hw; simp [write_accepted] at this; exact this.2
    have hpos : 0 < s._items := by
      have := hr; simp [read_accepted] at this; exact this.2
    rw [write_index_exact s (by unfold UINT_RANGE; omega), Nat.add_sub_cancel]
    have e1 := contentsOf_push s._size s._first s._items s._data i.data_in hlt
    have e2 := contentsOf_pop s._size s._first (s._items + 1)
      (store s._data ((s._first + s._items) % s._size) i.data_in) (by omega) h2
    have e3 := contentsOf_pop s._size s._first s._items s._data hpos h2
    rw [Nat.add_sub_cancel] at e2
    rw [e1, e3, List.cons_append] at e2
    have e4 := List.cons.inj e2
    rw [e3, List.cons_append, e4.2]
  · -- write only
    have hlt : s._items < s._size := by
      have := hw; simp [write_accepted] at this; exact this.2
    rw [write_index_exact s (by unfold UINT_RANGE; omega)]
    exact (contentsOf_push s._size s._first s._items s._data i.data_in hlt).symm
  · -- read only
    have hpos : 0 < s._items := by
      have := hr; simp [read_accepted] at this; exact this.2
    exact contentsOf_pop s._size s._first s._items s._data hpos h2

theorem contents_run {T : Type} (is : List (Inputs T)) (s : hw_fifo T) (h : Inv s)
    (hc : s._size ≤ NOWRAP_MAX) :
    contents s ++ accepted_writes s is = accepted_reads s is ++ contents (run s is) := by
  induction is generalizing s with
  | nil => simp [accepted_writes, accepted_reads, run]
  | cons i is ih =>
    have hstep := contents_fifo_process s i h hc
    have hrest := ih (fifo_process s i) (Inv_fifo_process s i h)
      (by rw [fifo_process_size]; exact hc)
    simp only [accepted_writes, accepted_reads, run]
    rw [← List.append_assoc, hstep, List.append_assoc, hrest, List.append_assoc]

/-! ## A run that wraps `_first + _items` around `2^32` -/

theorem run_pass_ticks (n : Nat) (s : hw_fifo Int) (h : Inv s) (hi : s._items = 1)
    (hz : 2 ≤ s._size) (hd : ∀ k, s._data k = 0) :
    (run s (List.replicate n pass_tick))._first = (s._first + n) % s._size ∧
    (run s (List.replicate n pass_tick))._items = 1 ∧
    (∀ k, (run s (List.replicate n pass_tick))._data k = 0) ∧
    accepted_writes s (List.replicate n pass_tick) = List.replicate n 0 ∧
    accepted_reads s (List.replicate n pass_tick) = List.replicate n 0 := by
  induction n generalizing s with
  | zero =>
    refine ⟨?_, hi, hd, rfl, rfl⟩
    show s._first = (s._first + 0) % s._size
    rw [Nat.add_zero, Nat.mod_eq_of_lt h.2.2.1]
  | succ n ih =>
    have hw : write_accepted s pass_tick = true := by
      simp only [write_accepted, pass_tick, hi, Bool.true_and, decide_eq_true_eq]; omega
    have hr : read_accepted s pass_tick = true := by
      simp only [read_accepted, pass_tick, hi, Bool.true_and, decide_eq_true_eq]; omega
    have e1 := fifo_process_items s pass_tick h
    have e2 := fifo_process_first s pass_tick h
    have e3 := fifo_process_size s pass_tick
    have e4 := fifo_process_data s pass_tick
    rw [hw, hr, hi] at e1
    rw [hr] at e2
    rw [hw] at e4
    simp only [if_true] at e1 e2 e4
    have hd2 : ∀ k, (fifo_process s pass_tick)._data k = 0 := by
      intro k
      rw [e4]
      unfold store
      split
      · rfl
      · exact hd k
    obtain ⟨r1, r2, r3, r4, r5⟩ := ih (fifo_process s pass_tick) (Inv_fifo_process s pass_tick h)
      e1 (by rw [e3]; exact hz) hd2
    rw [e2, e3, Nat.mod_add_mod] at r1
    refine ⟨?_, r2, r3, ?_, ?_⟩
    · show (run (fifo_process s pass_tick) (List.replicate n pass_tick))._first = _
      rw [r1]
      congr 1
      omega
    · show (if write_accepted s pass_tick = true then [pass_tick.data_in] else []) ++
          accepted_writes (fifo_process s pass_tick) (List.replicate n pass_tick) = _
      rw [hw, r4]
      rfl
    · show (if read_accepted s pass_tick = true then [s._data s._first] else []) ++
          accepted_reads (fifo_process s pass_tick) (List.replicate n pass_tick) = _
      rw [hr, r5, hd]
      rfl

theorem run_cons {T : Type} (s : hw_fifo T) (i : Inputs T) (is : List (Inputs T)) :
    run s (i :: is) = run (fifo_process s i) is := rfl

theorem run_single {T : Type} (s : hw_fifo T) (i : Inputs T) :
    run s [i] = fifo_process s i := rfl

theorem accepted_writes_cons {T : Type} (s : hw_fifo T) (i : Inputs T) (is : List (Inputs T)) :
    accepted_writes s (i :: is) =
      (if write_accepted s i then [i.data_in] else []) ++ accepted_writes (fifo_process s i) is :=
  rfl

theorem accepted_reads_cons {T : Type} (s : hw_fifo T) (i : Inputs T) (is : List (Inputs T)) :
    accepted_reads s (i :: is) =
      (if read_accepted s i then [s._data s._first] else []) ++
        accepted_reads (fifo_process s i) is :=
  rfl

theorem Inv_big_fifo : Inv big_fifo := by
  unfold Inv big_fifo UINT_RANGE
  decide

/-- A tick that only writes, on a state with room: the fields of the next state. -/
theorem write_only_tick {T : Type} (s : hw_fifo T) (d : T) (h : Inv s) (hlt : s._items < s._size) :
    (fifo_process s ⟨true, d, false⟩)._size = s._size ∧
    (fifo_process s ⟨true, d, false⟩)._first = s._first ∧
    (fifo_process s ⟨true, d, false⟩)._items = s._items + 1 ∧
    (fifo_process s ⟨true, d, false⟩)._data = store s._data (write_index s) d ∧
    write_accepted s ⟨true, d, false⟩ = true ∧
    read_accepted s ⟨true, d, false⟩ = false := by
  have c1 := fifo_process_items s ⟨true, d, false⟩ h
  have c2 := fifo_process_first s ⟨true, d, false⟩ h
  have c3 := fifo_process_size s ⟨true, d, false⟩
  have c4 := fifo_process_data s ⟨true, d, false⟩
  have cw : write_accepted s ⟨true, d, false⟩ = true := by
    simp only [write_accepted, Bool.true_and, decide_eq_true_eq]; exact hlt
  have cr : read_accepted s ⟨true, d, false⟩ = false := by
    simp only [read_accepted, Bool.false_and]
  rw [cw, cr] at c1
  rw [cr] at c2
  rw [cw] at c4
  simp only [if_true, if_false, Bool.false_eq_true, Nat.sub_zero] at c1 c2 c4
  exact ⟨c3, c2, c1, c4, cw, cr⟩

/-- The state reached by `wrap_fill n` when `n` ticks bring the head to slot
4294967294, and the accepted writes and reads on the way. -/
theorem wrap_fill_state (n : Nat) (hn : n % 4294967295 = 4294967294) :
    (run big_fifo (wrap_fill n))._size = 4294967295 ∧
    (run big_fifo (wrap_fill n))._first = 4294967294 ∧
    (run big_fifo (wrap_fill n))._items = 2 ∧
    (run big_fifo (wrap_fill n))._data 0 = 1 ∧
    (∀ k, k ≠ 0 → (run big_fifo (wrap_fill n))._data k = 0) ∧
    accepted_writes big_fifo (wrap_fill n) = List.replicate (n + 1) 0 ++ [1] ∧
    accepted_reads big_fifo (wrap_fill n) = List.replicate n 0 := by
  -- first tick: a write of 0 into the empty FIFO
  have hA := Inv_fifo_process big_fifo ⟨true, 0, false⟩ Inv_big_fifo
  obtain ⟨a3, a2, a1, a4, aw, ar⟩ := write_only_tick big_fifo 0 Inv_big_fifo (by decide)
  have a5 : ∀ k, (fifo_process big_fifo ⟨true, 0, false⟩)._data k = 0 := by
    intro k
    rw [a4]
    unfold store
    split <;> rfl
  have a3b : (fifo_process big_fifo ⟨true, 0, false⟩)._size = 4294967295 := a3
  have a2b : (fifo_process big_fifo ⟨true, 0, false⟩)._first = 0 := a2
  -- the n passing ticks
  obtain ⟨b1, b2, b3, b4, b5⟩ := run_pass_ticks n _ hA a1 (by rw [a3b]; decide) a5
  rw [a2b, a3b, Nat.zero_add, hn] at b1
  have b6 : (run (fifo_process big_fifo ⟨true, 0, false⟩)
      (List.replicate n pass_tick))._size = 4294967295 := by rw [run_size, a3b]
  have hB := Inv_run (List.replicate n pass_tick) _ hA
  -- the write of 1
  generalize hs : run (fifo_process big_fifo ⟨true, 0, false⟩)
      (List.replicate n pass_tick) = sB at b1 b2 b3 b6 hB
  obtain ⟨c3, c2, c1, c4, cw, cr⟩ := write_only_tick sB 1 hB (by rw [b2, b6]; decide)
  have ci : write_index sB = 0 := by
    simp only [write_index, b1, b2, b6, UINT_RANGE]
  rw [ci] at c4
  have e : run big_fifo (wrap_fill n) = fifo_process sB ⟨true, 1, false⟩ := by
    unfold wrap_fill
    rw [run_cons, run_append, hs, run_single]
  rw [e]
  refine ⟨by rw [c3, b6], by rw [c2, b1], by rw [c1, b2], ?_, ?_, ?_, ?_⟩
  · rw [c4]; simp [store]
  · intro k hk
    rw [c4]; simp [store, b3, hk]
  · unfold wrap_fill
    rw [accepted_writes_cons, accepted_writes_append, hs, b4, accepted_writes_cons, aw, cw]
    simp [accepted_writes, List.replicate_succ]
  · unfold wrap_fill
    rw [accepted_reads_cons, accepted_reads_append, hs, b5, accepted_reads_cons, ar, cr]
    simp [accepted_reads]

/-- The state reached by `wrap_ticks n`: the write of `2` went to slot 0, which held `1`. -/
theorem wrap_ticks_state (n : Nat) (hn : n % 4294967295 = 4294967294) :
    (run big_fifo (wrap_ticks n))._size = 4294967295 ∧
    (run big_fifo (wrap_ticks n))._first = 4294967294 ∧
    (run big_fifo (wrap_ticks n))._items = 3 ∧
    (run big_fifo (wrap_ticks n))._data 0 = 2 ∧
    (∀ k, k ≠ 0 → (run big_fifo (wrap_ticks n))._data k = 0) ∧
    accepted_writes big_fifo (wrap_ticks n) = List.replicate (n + 1) 0 ++ [1, 2] ∧
    accepted_reads big_fifo (wrap_ticks n) = List.replicate n 0 := by
  obtain ⟨p1, p2, p3, p4, p5, p6, p7⟩ := wrap_fill_state n hn
  have hP := Inv_run (wrap_fill n) big_fifo Inv_big_fifo
  generalize hs : run big_fifo (wrap_fill n) = sP at p1 p2 p3 p4 p5 hP
  obtain ⟨c3, c2, c1, c4, cw, cr⟩ := write_only_tick sP 2 hP (by rw [p1, p3]; decide)
  have ci : write_index sP = 0 := by
    simp only [write_index, p1, p2, p3, UINT_RANGE]
  rw [ci] at c4
  have e : run big_fifo (wrap_ticks n) = fifo_process sP ⟨true, 2, false⟩ := by
    unfold wrap_ticks
    rw [run_append, hs, run_single]
  rw [e]
  refine ⟨by rw [c3, p1], by rw [c2, p2], by rw [c1, p3], ?_, ?_, ?_, ?_⟩
  · rw [c4]; simp [store]
  · intro k hk
    rw [c4]; simp [store, hk, p5 k hk]
  · unfold wrap_ticks
    rw [accepted_writes_append, hs, p6, accepted_writes_cons, cw]
    simp [accepted_writes]
  · unfold wrap_ticks
    rw [accepted_reads_append, hs, p7, accepted_reads_cons, cr]
    simp [accepted_reads]

/-- A tick that only reads, on a non-empty state: the fields of the next state. -/
theorem read_only_tick {T : Type} (s : hw_fifo T) (d : T) (h : Inv s) (hpos : 0 < s._items) :
    (fifo_process s ⟨false, d, true⟩)._size = s._size ∧
    (fifo_process s ⟨false, d, true⟩)._first = (s._first + 1) % s._size ∧
    (fifo_process s ⟨false, d, true⟩)._items = s._items - 1 ∧
    (fifo_process s ⟨false, d, true⟩)._data = s._data ∧
    write_accepted s ⟨false, d, true⟩ = false ∧
    read_accepted s ⟨false, d, true⟩ = true := by
  have c1 := fifo_process_items s ⟨false, d, true⟩ h
  have c2 := fifo_process_first s ⟨false, d, true⟩ h
  have c3 := fifo_process_size s ⟨false, d, true⟩
  have c4 := fifo_process_data s ⟨false, d, true⟩
  have cw : write_accepted s ⟨false, d, true⟩ = false := by
    simp only [write_accepted, Bool.false_and]
  have cr : read_accepted s ⟨false, d, true⟩ = true := by
    simp only [read_accepted, Bool.true_and, decide_eq_true_eq]; exact hpos
  rw [cw, cr] at c1
  rw [cr] at c2
  rw [cw] at c4
  simp only [if_true, if_false, Bool.false_eq_true, Nat.add_zero] at c1 c2 c4
  exact ⟨c3, c2, c1, c4, cw, cr⟩

theorem contents_three (s : hw_fifo Int) (h : s._items = 3) :
    contents s = [s._data (slot s 0), s._data (slot s 1), s._data (slot s 2)] := by
  unfold contents
  rw [h]
  rfl

/-- On the wrapping run the accepted writes are not the accepted reads followed by the
stored items: the stored `1` has been replaced by `2`. -/
theorem wrap_ticks_order (n : Nat) (hn : n % 4294967295 = 4294967294) :
    contents (run big_fifo (wrap_ticks n)) = [0, 2, 0] ∧
    accepted_writes big_fifo (wrap_ticks n) ≠
      accepted_reads big_fifo (wrap_ticks n) ++ contents (run big_fifo (wrap_ticks n)) := by
  obtain ⟨q1, q2, q3, q4, q5, q6, q7⟩ := wrap_ticks_state n hn
  have hc : contents (run big_fifo (wrap_ticks n)) = [0, 2, 0] := by
    rw [contents_three _ q3]
    simp only [slot, q1, q2]
    have e0 : (4294967294 + 0) % 4294967295 = 4294967294 := by decide
    have e1 : (4294967294 + 1) % 4294967295 = 0 := by decide
    have e2 : (4294967294 + 2) % 4294967295 = 1 := by decide
    rw [e0, e1, e2, q4, q5 1 (by decide), q5 4294967294 (by decide)]
  refine ⟨hc, ?_⟩
  rw [hc, q6, q7]
  intro h
  have h2 : List.replicate n (0 : Int) ++ [0, 2, 0] = List.replicate (n + 1) 0 ++ [2, 0] := by
    rw [List.replicate_succ', List.append_assoc]
    rfl
  rw [h2] at h
  have h3 := List.append_cancel_left h
  exact absurd h3 (by decide)

/-- On the wrapping run a write lands on an occupied slot that is not the head. -/
theorem wrap_fill_overwrite (n : Nat) (hn : n % 4294967295 = 4294967294) :
    write_accepted (run big_fifo (wrap_fill n)) ⟨true, 2, false⟩ = true ∧
    read_accepted (run big_fifo (wrap_fill n)) ⟨true, 2, false⟩ = false ∧
    1 < (run big_fifo (wrap_fill n))._items ∧
    write_index (run big_fifo (wrap_fill n)) = slot (run big_fifo (wrap_fill n)) 1 ∧
    (run big_fifo (wrap_fill n))._data (slot (run big_fifo (wrap_fill n)) 1) = 1 ∧
    (fifo_process (run big_fifo (wrap_fill n)) ⟨true, 2, false⟩)._data
      (slot (run big_fifo (wrap_fill n)) 1) = 2 := by
  obtain ⟨p1, p2, p3, p4, p5, p6, p7⟩ := wrap_fill_state n hn
  have hP := Inv_run (wrap_fill n) big_fifo Inv_big_fifo
  generalize hs : run big_fifo (wrap_fill n) = sP at p1 p2 p3 p4 p5 hP
  obtain ⟨c3, c2, c1, c4, cw, cr⟩ := write_only_tick sP 2 hP (by rw [p1, p3]; decide)
  have ci : write_index sP = 0 := by
    simp only [write_index, p1, p2, p3, UINT_RANGE]
  have cs : slot sP 1 = 0 := by
    simp only [slot, p1, p2]
  refine ⟨cw, cr, by rw [p3]; decide, by rw [ci, cs], by rw [cs, p4], ?_⟩
  rw [c4, ci, cs]
  simp [store]

/-- After the wrapping run and one read, `data_out` shows `2` although the oldest
accepted write that has not been read is `1`. -/
theorem wrap_read_head (n : Nat) (hn : n % 4294967295 = 4294967294) :
    0 < (run big_fifo (wrap_read_ticks n))._items ∧
    (run big_fifo (wrap_read_ticks n)).data_out = 2 ∧
    (run big_fifo (wrap_read_ticks n)).data_out =
      (run big_fifo (wrap_read_ticks n))._data (run big_fifo (wrap_read_ticks n))._first ∧
    pending big_fifo (wrap_read_ticks n) = [1, 2] := by
  obtain ⟨q1, q2, q3, q4, q5, q6, q7⟩ := wrap_ticks_state n hn
  have hQ := Inv_run (wrap_ticks n) big_fifo Inv_big_fifo
  have hw : accepted_writes big_fifo (wrap_read_ticks n) = List.replicate (n + 1) 0 ++ [1, 2] := by
    unfold wrap_read_ticks
    rw [accepted_writes_append, q6, accepted_writes_cons]
    simp [accepted_writes, write_accepted]
  have hr : accepted_reads big_fifo (wrap_read_ticks n) = List.replicate (n + 1) 0 := by
    unfold wrap_read_ticks
    rw [accepted_reads_append, q7, accepted_reads_cons, q2, q5 4294967294 (by decide)]
    simp [accepted_reads, read_accepted, q3, List.replicate_succ']
  have e : run big_fifo (wrap_read_ticks n) = fifo_process (run big_fifo (wrap_ticks n))
      ⟨false, 0, true⟩ := by
    unfold wrap_read_ticks
    rw [run_append, run_single]
  generalize hs : run big_fifo (wrap_ticks n) = sQ at q1 q2 q3 q4 q5 hQ e
  obtain ⟨c3, c2, c1, c4, cw, cr⟩ := read_only_tick sQ 0 hQ (by rw [q3]; decide)
  have hout := (fifo_process_outputs sQ ⟨false, 0, true⟩).2.2
  have hf : (fifo_process sQ ⟨false, 0, true⟩)._first = 0 := by
    rw [c2, q1, q2]
  refine ⟨?_, ?_, ?_, ?_⟩
  · rw [e, c1, q3]; decide
  · rw [e, hout, c4, hf, q4]
  · rw [e, hout]
  · unfold pending
    rw [hw, hr]
    exact List.drop_left' rfl

/-! ## Construction, invariant and handshake outputs -/

theorem OutInv_run {T : Type} (is : List (Inputs T)) (s : hw_fifo T) (h : OutInv s) :
    OutInv (run s is) := by
  induction is generalizing s with
  | nil => exact h
  | cons i is ih =>
    exact ih _ ⟨(fifo_process_outputs s i).1, (fifo_process_outputs s i).2.1⟩

theorem OutInv_ctor {T : Type} {size : Nat} {mem : Nat → T} {dout : T} {s : hw_fifo T}
    (h : hw_fifo.ctor size mem dout = some s) : OutInv s := by
  obtain ⟨hpos, rfl⟩ := ctor_eq_some h
  unfold OutInv
  simp [hpos]

/-- C2: in every state reached from a successful construction (capacity at least 1,
held in an `unsigned`) by any sequence of ticks, the capacity is unchanged,
`_items <= _size`, `_first < _size`, and the index `(_first + _items) % _size` of the
store of line 130 is below `_size`; so `_data[(_first + _items) % _size]` and
`_data[_first]` are inside the allocation. -/
theorem hw_fifo_state_invariant {T : Type} (size : Nat) (mem : Nat → T) (dout : T)
    (s0 : hw_fifo T) (ins : List (Inputs T)) (hsize : size < UINT_RANGE)
    (hc : hw_fifo.ctor size mem dout = some s0) :
    1 ≤ size ∧ (run s0 ins)._size = size ∧
    (run s0 ins)._items ≤ (run s0 ins)._size ∧
    (run s0 ins)._first < (run s0 ins)._size ∧
    write_index (run s0 ins) < (run s0 ins)._size := by
  have hI := Inv_run ins s0 (Inv_ctor hsize hc)
  obtain ⟨hpos, rfl⟩ := ctor_eq_some hc
  obtain ⟨h0, _, h2, h3⟩ := hI
  exact ⟨hpos, run_size ins _, h3, h2, Nat.mod_lt _ h0⟩

theorem hw_fifo_state_invariant_witness :
    (2 < UINT_RANGE ∧ hw_fifo.ctor 2 (fun _ => (0 : Int)) 0 = some fifo2) ∧
    (1 ≤ 2 ∧ (run fifo2 [⟨true, 5, false⟩, ⟨true, 7, true⟩])._size = 2 ∧
      (run fifo2 [⟨true, 5, false⟩, ⟨true, 7, true⟩])._items ≤
        (run fifo2 [⟨true, 5, false⟩, ⟨true, 7, true⟩])._size ∧
      (run fifo2 [⟨true, 5, false⟩, ⟨true, 7, true⟩])._first <
        (run fifo2 [⟨true, 5, false⟩, ⟨true, 7, true⟩])._size ∧
      write_index (run fifo2 [⟨true, 5, false⟩, ⟨true, 7, true⟩]) <
        (run fifo2 [⟨true, 5, false⟩, ⟨true, 7, true⟩])._size) :=
  ⟨⟨by decide, rfl⟩,
   hw_fifo_state_invariant 2 (fun _ => (0 : Int)) 0 fifo2 [⟨true, 5, false⟩, ⟨true, 7, true⟩]
     (by decide) rfl⟩

/-- C3: at every tick of every run from construction, the first tick included, the
visible `ready_out` is false exactly when the count equals the capacity at the start of
that tick and the visible `valid_out` is false exactly when the count is 0; each tick
drives `ready_out = (count < capacity)` and `valid_out = (count > 0)` from the count
after its write and read steps, and this differs from the count before them (the first
accepted write drives `valid_out = true` while the count before it is 0). -/
theorem backpressure_outputs {T : Type} (size : Nat) (mem : Nat → T) (dout : T)
    (s0 : hw_fifo T) (ins : List (Inputs T)) (hsize : size < UINT_RANGE)
    (hc : hw_fifo.ctor size mem dout = some s0) :
    ((run s0 ins).ready_out = false ↔ (run s0 ins)._items = (run s0 ins)._size) ∧
    ((run s0 ins).valid_out = false ↔ (run s0 ins)._items = 0) ∧
    (∀ i : Inputs T,
      (fifo_process (run s0 ins) i).ready_out =
        decide ((fifo_process (run s0 ins) i)._items < (fifo_process (run s0 ins) i)._size) ∧
      (fifo_process (run s0 ins) i).valid_out =
        decide ((fifo_process (run s0 ins) i)._items > 0)) ∧
    (s0.ready_out = true ∧ s0.valid_out = false ∧
      (fifo_process s0 ⟨true, dout, false⟩).valid_out = true ∧
      decide (s0._items > 0) = false) := by
  have hI := Inv_run ins s0 (Inv_ctor hsize hc)
  have hO := OutInv_run ins s0 (OutInv_ctor hc)
  have hI0 := Inv_ctor hsize hc
  obtain ⟨h0, _, h2, h3⟩ := hI
  refine ⟨?_, ?_, fun i => ⟨(fifo_process_outputs _ i).1, (fifo_process_outputs _ i).2.1⟩, ?_⟩
  · rw [hO.1]; simp only [decide_eq_false_iff_not]; omega
  · rw [hO.2]; simp only [decide_eq_false_iff_not]; omega
  · obtain ⟨hpos, rfl⟩ := ctor_eq_some hc
    refine ⟨rfl, rfl, ?_, by simp⟩
    rw [(fifo_process_outputs _ _).2.1, fifo_process_items _ _ hI0]
    simp [write_accepted, read_accepted, hpos]

theorem backpressure_outputs_witness :
    (1 < UINT_RANGE ∧ hw_fifo.ctor 1 (fun _ => (0 : Int)) 0 = some fifo1) ∧
    ((run fifo1 [⟨true, 5, false⟩]).ready_out = false ↔
      (run fifo1 [⟨true, 5, false⟩])._items = (run fifo1 [⟨true, 5, false⟩])._size) :=
  ⟨⟨by decide, rfl⟩,
   (backpressure_outputs 1 (fun _ => (0 : Int)) 0 fifo1 [⟨true, 5, false⟩] (by decide) rfl).1⟩

/-- C4: the construction is rejected exactly when the requested capacity is below 1 (so
for capacity 0, every time), and for every capacity of at least 1 it yields the empty
state with `_size = size`, `_first = 0`, `_items = 0`, `ready_out` true and `valid_out`
false. -/
theorem ctor_rejects_iff {T : Type} (size : Nat) (mem : Nat → T) (dout : T) :
    (hw_fifo.ctor size mem dout = none ↔ size < 1) ∧
    (1 ≤ size → ∃ s, hw_fifo.ctor size mem dout = some s ∧ s._size = size ∧ s._first = 0 ∧
      s._items = 0 ∧ contents s = [] ∧ s.ready_out = true ∧ s.valid_out = false) := by
  unfold hw_fifo.ctor
  constructor
  · split
    · simp; omega
    · simp; omega
  · intro h
    rw [if_pos (by omega)]
    exact ⟨_, rfl, rfl, rfl, rfl, rfl, rfl, rfl⟩

theorem ctor_rejects_iff_witness :
    hw_fifo.ctor 0 (fun _ => (0 : Int)) 0 = none ∧
    (1 ≤ 2 ∧ ∃ s, hw_fifo.ctor 2 (fun _ => (0 : Int)) 0 = some s ∧ s._size = 2 ∧ s._first = 0 ∧
      s._items = 0 ∧ contents s = [] ∧ s.ready_out = true ∧ s.valid_out = false) :=
  ⟨(ctor_rejects_iff 0 (fun _ => (0 : Int)) 0).1.mpr (by decide),
   by decide, (ctor_rejects_iff 2 (fun _ => (0 : Int)) 0).2 (by decide)⟩

/-! ## One tick: count change, simultaneous write and read, ignored requests -/

theorem Inv_of_Reachable {T : Type} {s : hw_fifo T} (h : Reachable s) : Inv s := by
  obtain ⟨size, mem, dout, s0, ins, hsize, hc, rfl⟩ := h
  exact Inv_run ins s0 (Inv_ctor hsize hc)

theorem slot_fifo_process_read {T : Type} (s : hw_fifo T) (i : Inputs T) (h : Inv s)
    (hr : read_accepted s i = true) (j : Nat) :
    slot (fifo_process s i) j = (s._first + (j + 1)) % s._size := by
  unfold slot
  rw [fifo_process_first s i h, fifo_process_size, hr, if_pos rfl, Nat.mod_add_mod]
  congr 1
  omega

/-- A tick that writes and reads, on a state that is neither empty nor full: the fields
of the next state. -/
theorem write_read_tick {T : Type} (s : hw_fifo T) (d : T) (h : Inv s)
    (hlt : s._items < s._size) (hpos : 0 < s._items) :
    (fifo_process s ⟨true, d, true⟩)._size = s._size ∧
    (fifo_process s ⟨true, d, true⟩)._first = (s._first + 1) % s._size ∧
    (fifo_process s ⟨true, d, true⟩)._items = s._items ∧
    (fifo_process s ⟨true, d, true⟩)._data = store s._data (write_index s) d := by
  have c1 := fifo_process_items s ⟨true, d, true⟩ h
  have c2 := fifo_process_first s ⟨true, d, true⟩ h
  have c3 := fifo_process_size s ⟨true, d, true⟩
  have c4 := fifo_process_data s ⟨true, d, true⟩
  have cw : write_accepted s ⟨true, d, true⟩ = true := by
    simp only [write_accepted, Bool.true_and, decide_eq_true_eq]; exact hlt
  have cr : read_accepted s ⟨true, d, true⟩ = true := by
    simp only [read_accepted, Bool.true_and, decide_eq_true_eq]; exact hpos
  rw [cw, cr] at c1
  rw [cr] at c2
  rw [cw] at c4
  simp only [if_true, Nat.add_sub_cancel] at c1 c2 c4
  exact ⟨c3, c2, c1, c4⟩

/-- When a write and a read are accepted in the same tick, the slot written is one of
the occupied slots of the next state, even if `_first + _items` wraps around `2^32`. -/
theorem written_slot_retained {T : Type} (s : hw_fifo T) (i : Inputs T) (h : Inv s)
    (hw : write_accepted s i = true) (hr : read_accepted s i = true) :
    ∃ j, j < s._items ∧ slot (fifo_process s i) j = write_index s := by
  have hlt : s._items < s._size := by
    have := hw; simp [write_accepted] at this; exact this.2
  have hpos : 0 < s._items := by
    have := hr; simp [read_accepted] at this; exact this.2
  obtain ⟨h0, h1, h2, h3⟩ := h
  unfold UINT_RANGE at h1
  by_cases hwrap : s._first + s._items < 4294967296
  · refine ⟨s._items - 1, by omega, ?_⟩
    rw [slot_fifo_process_read s i ⟨h0, h1, h2, h3⟩ hr]
    unfold write_index UINT_RANGE
    rw [Nat.mod_eq_of_lt hwrap]
    congr 1
    omega
  · have e1 : (s._first + s._items) % 4294967296 = s._first + s._items - 4294967296 := by
      omega
    have e2 : s._first + s._items - 4294967296 < s._size := by omega
    refine ⟨s._items - 1 - (4294967296 - s._size), by omega, ?_⟩
    rw [slot_fifo_process_read s i ⟨h0, h1, h2, h3⟩ hr]
    unfold write_index UINT_RANGE
    rw [e1, Nat.mod_eq_of_lt e2]
    have e3 : s._first + (s._items - 1 - (4294967296 - s._size) + 1) =
        (s._first + s._items - 4294967296) + s._size := by omega
    rw [e3, Nat.add_mod_right, Nat.mod_eq_of_lt e2]

/-- C6: for every reachable state and every input, one tick changes the count by at
most 1 in either direction; in a tick where both the write and the read are accepted the
count is unchanged, the head advances by one modulo the capacity, the old head slot is
no longer among the occupied slots (the old head item is removed), and the slot just
written is among them and holds `data_in` (the new item is retained).  Scenario:
capacity 2, empty; a tick with `valid_in = true, data_in = 5, ready_in = false` gives
count 1, `valid_out = true`, `data_out = 5`; a second tick with `valid_in = true,
data_in = 7, ready_in = true` gives count 1, head 1, `data_out = 7`. -/
theorem tick_changes_count_by_at_most_one :
    (∀ (T : Type) (s : hw_fifo T) (i : Inputs T), Reachable s →
      ((fifo_process s i)._items ≤ s._items + 1 ∧ s._items ≤ (fifo_process s i)._items + 1) ∧
      (write_accepted s i = true → read_accepted s i = true →
        (fifo_process s i)._items = s._items ∧
        (fifo_process s i)._first = (s._first + 1) % s._size ∧
        (∀ j, j < (fifo_process s i)._items → slot (fifo_process s i) j ≠ s._first) ∧
        (∃ j, j < (fifo_process s i)._items ∧ slot (fifo_process s i) j = write_index s) ∧
        (fifo_process s i)._data (write_index s) = i.data_in)) ∧
    (∀ (mem : Nat → Int) (dout : Int) (c : hw_fifo Int), hw_fifo.ctor 2 mem dout = some c →
      (fifo_process c ⟨true, 5, false⟩)._items = 1 ∧
      (fifo_process c ⟨true, 5, false⟩).valid_out = true ∧
      (fifo_process c ⟨true, 5, false⟩).data_out = 5 ∧
      (fifo_process (fifo_process c ⟨true, 5, false⟩) ⟨true, 7, true⟩)._items = 1 ∧
      (fifo_process (fifo_process c ⟨true, 5, false⟩) ⟨true, 7, true⟩)._first = 1 ∧
      (fifo_process (fifo_process c ⟨true, 5, false⟩) ⟨true, 7, true⟩).valid_out = true ∧
      (fifo_process (fifo_process c ⟨true, 5, false⟩) ⟨true, 7, true⟩).data_out = 7) := by
  constructor
  · intro T s i hreach
    have hI := Inv_of_Reachable hreach
    have hi := fifo_process_items s i hI
    constructor
    · rw [hi]; constructor <;> split <;> split <;> omega
    · intro hw hr
      have hlt : s._items < s._size := by
        have := hw; simp [write_accepted] at this; exact this.2
      have hitems : (fifo_process s i)._items = s._items := by
        rw [hi, hw, hr]; simp
      refine ⟨hitems, ?_, ?_, ?_, ?_⟩
      · rw [fifo_process_first s i hI, hr, if_pos rfl]
      · intro j hj
        rw [hitems] at hj
        rw [slot_fifo_process_read s i hI hr]
        have hne := @mod_add_ne s._size s._first 0 (j + 1) (by omega) (by omega)
        rw [Nat.add_zero, Nat.mod_eq_of_lt hI.2.2.1] at hne
        exact fun e => hne e.symm
      · rw [hitems]
        exact written_slot_retained s i hI hw hr
      · rw [fifo_process_data, hw, if_pos rfl]
        simp [store]
  · intro mem dout c hc
    have hI := Inv_ctor (show 2 < UINT_RANGE by decide) hc
    obtain ⟨_, rfl⟩ := ctor_eq_some hc
    obtain ⟨a3, a2, a1, a4, _, _⟩ := write_only_tick _ (5 : Int) hI (show 0 < 2 by decide)
    have hA := Inv_fifo_process _ ⟨true, (5 : Int), false⟩ hI
    obtain ⟨ao1, ao2, ao3⟩ := fifo_process_outputs
      ({ _size := 2, _first := 0, _items := 0, _data := mem, ready_out := true,
         data_out := dout, valid_out := false } : hw_fifo Int) ⟨true, 5, false⟩
    generalize fifo_process
      ({ _size := 2, _first := 0, _items := 0, _data := mem, ready_out := true,
         data_out := dout, valid_out := false } : hw_fifo Int) ⟨true, 5, false⟩ = sA
      at a1 a2 a3 a4 hA ao1 ao2 ao3
    have a1b : sA._items = 1 := a1
    have a2b : sA._first = 0 := a2
    have a3b : sA._size = 2 := a3
    have a4b : sA._data = store mem 0 5 := a4
    obtain ⟨b3, b2, b1, b4⟩ := write_read_tick sA (7 : Int) hA (by rw [a1b, a3b]; decide)
      (by rw [a1b]; decide)
    obtain ⟨bo1, bo2, bo3⟩ := fifo_process_outputs sA ⟨true, 7, true⟩
    have bi : write_index sA = 1 := by
      simp only [write_index, a1b, a2b, a3b, UINT_RANGE]
    rw [a2b, a3b] at b2
    rw [bi] at b4
    refine ⟨a1b, ?_, ?_, ?_, b2, ?_, ?_⟩
    · rw [ao2, a1b]; rfl
    · rw [ao3, a4b, a2b]; simp [store]
    · rw [b1, a1b]
    · rw [bo2, b1, a1b]; rfl
    · rw [bo3, b4, b2]; simp [store]

theorem tick_changes_count_by_at_most_one_witness :
    (Reachable (run fifo2 [⟨true, 5, false⟩]) ∧
      write_accepted (run fifo2 [⟨true, 5, false⟩]) ⟨true, 7, true⟩ = true ∧
      read_accepted (run fifo2 [⟨true, 5, false⟩]) ⟨true, 7, true⟩ = true) ∧
    (fifo_process (run fifo2 [⟨true, 5, false⟩]) ⟨true, 7, true⟩)._items =
      (run fifo2 [⟨true, 5, false⟩])._items ∧
    (fifo_process (fifo_process fifo2 ⟨true, 5, false⟩) ⟨true, 7, true⟩).data_out = 7 :=
  have hr : Reachable (run fifo2 [⟨true, 5, false⟩]) :=
    ⟨2, fun _ => 0, 0, fifo2, [⟨true, 5, false⟩], by decide, rfl, rfl⟩
  ⟨⟨hr, by decide, by decide⟩,
   ((tick_changes_count_by_at_most_one.1 Int (run fifo2 [⟨true, 5, false⟩]) ⟨true, 7, true⟩
      hr).2 (by decide) (by decide)).1,
   (tick_changes_count_by_at_most_one.2 (fun _ => 0) 0 fifo2 rfl).2.2.2.2.2.2⟩

/-- C7: in every reachable full state a tick with `valid_in = true` and `ready_in = false`
leaves storage, head and count as they were, and in every reachable empty state so does a
tick with `ready_in = true` and `valid_in = false`.  A tick has no error result
(`fifo_process` is a total function), and after every tick from a reachable state the
head and the write index are again inside the allocation and the count within the
capacity. -/
theorem protocol_violations_ignored {T : Type} (s : hw_fifo T) (hreach : Reachable s) :
    (s._items = s._size → ∀ d : T,
      (fifo_process s ⟨true, d, false⟩)._data = s._data ∧
      (fifo_process s ⟨true, d, false⟩)._first = s._first ∧
      (fifo_process s ⟨true, d, false⟩)._items = s._items) ∧
    (s._items = 0 → ∀ d : T,
      (fifo_process s ⟨false, d, true⟩)._data = s._data ∧
      (fifo_process s ⟨false, d, true⟩)._first = s._first ∧
      (fifo_process s ⟨false, d, true⟩)._items = s._items) ∧
    (∀ i : Inputs T,
      (fifo_process s i)._first < (fifo_process s i)._size ∧
      write_index (fifo_process s i) < (fifo_process s i)._size ∧
      (fifo_process s i)._items ≤ (fifo_process s i)._size) := by
  have hI := Inv_of_Reachable hreach
  refine ⟨?_, ?_, ?_⟩
  · intro hfull d
    have hw : write_accepted s ⟨true, d, false⟩ = false := by
      simp [write_accepted, hfull]
    have hr : read_accepted s ⟨true, d, false⟩ = false := by
      simp [read_accepted]
    refine ⟨?_, ?_, ?_⟩
    · rw [fifo_process_data, hw]; simp
    · rw [fifo_process_first s _ hI, hr]; simp
    · rw [fifo_process_items s _ hI, hw, hr]; simp
  · intro hempty d
    have hw : write_accepted s ⟨false, d, true⟩ = false := by
      simp [write_accepted]
    have hr : read_accepted s ⟨false, d, true⟩ = false := by
      simp [read_accepted, hempty]
    refine ⟨?_, ?_, ?_⟩
    · rw [fifo_process_data, hw]; simp
    · rw [fifo_process_first s _ hI, hr]; simp
    · rw [fifo_process_items s _ hI, hw, hr]; simp
  · intro i
    obtain ⟨h0, _, h2, h3⟩ := Inv_fifo_process s i hI
    exact ⟨h2, Nat.mod_lt _ h0, h3⟩

theorem protocol_violations_ignored_witness :
    (Reachable (run fifo1 [⟨true, 5, false⟩]) ∧
      (run fifo1 [⟨true, 5, false⟩])._items = (run fifo1 [⟨true, 5, false⟩])._size) ∧
    (fifo_process (run fifo1 [⟨true, 5, false⟩]) ⟨true, 9, false⟩)._data =
        (run fifo1 [⟨true, 5, false⟩])._data ∧
      (fifo_process (run fifo1 [⟨true, 5, false⟩]) ⟨true, 9, false⟩)._first =
        (run fifo1 [⟨true, 5, false⟩])._first ∧
      (fifo_process (run fifo1 [⟨true, 5, false⟩]) ⟨true, 9, false⟩)._items =
        (run fifo1 [⟨true, 5, false⟩])._items :=
  have hr : Reachable (run fifo1 [⟨true, 5, false⟩]) :=
    ⟨1, fun _ => 0, 0, fifo1, [⟨true, 5, false⟩], by decide, rfl, rfl⟩
  ⟨⟨hr, by decide⟩, (protocol_violations_ignored (run fifo1 [⟨true, 5, false⟩]) hr).1
    (by decide) 9⟩

/-! ## Capacity 1 -/

theorem Holds.inv {T : Type} {s : hw_fifo T} {v : T} (h : Holds s v) : Inv s := by
  obtain ⟨h1, h2, h3, _⟩ := h
  refine ⟨by omega, by rw [h1]; decide, by omega, by omega⟩

theorem Holds_fifo_process {T : Type} (s : hw_fifo T) (v : T) (i : Inputs T) (h : Holds s v)
    (hi : i.ready_in = false) : Holds (fifo_process s i) v := by
  have hI := h.inv
  obtain ⟨h1, h2, h3, h4, _, _, _⟩ := h
  have hw : write_accepted s i = false := by simp [write_accepted, h1, h3]
  have hr : read_accepted s i = false := by simp [read_accepted, hi]
  have e1 : (fifo_process s i)._items = 1 := by
    rw [fifo_process_items s i hI, hw, hr, h3]; rfl
  have e2 : (fifo_process s i)._first = 0 := by
    rw [fifo_process_first s i hI, hr, h2]; rfl
  have e3 : (fifo_process s i)._size = 1 := by rw [fifo_process_size, h1]
  have e4 : (fifo_process s i)._data = s._data := by
    rw [fifo_process_data, hw]; rfl
  obtain ⟨o1, o2, o3⟩ := fifo_process_outputs s i
  refine ⟨e3, e2, e1, by rw [e4, h4], ?_, ?_, ?_⟩
  · rw [o1, e1, e3]; rfl
  · rw [o2, e1]; rfl
  · rw [o3, e4, e2, h4]

theorem Holds_run {T : Type} (hold : List (Inputs T)) (s : hw_fifo T) (v : T) (h : Holds s v)
    (hh : ∀ i ∈ hold, i.ready_in = false) : Holds (run s hold) v := by
  induction hold generalizing s with
  | nil => exact h
  | cons i is ih =>
    exact ih (fifo_process s i) (Holds_fifo_process s v i h (hh i (List.mem_cons_self _ _)))
      (fun k hk => hh k (List.mem_cons_of_mem _ hk))

/-- C8: for a `hw_fifo` of capacity 1, if the write of tick `t` (input `w`) is accepted,
the outputs driven by that tick are `valid_out = true`, `data_out = w.data_in`,
`ready_out = false`; over any later ticks `hold` whose `ready_in` is false, whatever their
`valid_in` and `data_in`, `valid_out` stays true and `data_out` stays `w.data_in`; at the
first tick `r` with `ready_in = true` the read is accepted, it reads that value, and the
FIFO is empty again. -/
theorem single_register {T : Type} (mem : Nat → T) (dout : T) (s0 : hw_fifo T)
    (pre hold : List (Inputs T)) (w r : Inputs T)
    (hc : hw_fifo.ctor 1 mem dout = some s0)
    (hw : write_accepted (run s0 pre) w = true)
    (hh : ∀ i ∈ hold, i.ready_in = false) (hr : r.ready_in = true) :
    ((fifo_process (run s0 pre) w).valid_out = true ∧
      (fifo_process (run s0 pre) w).data_out = w.data_in ∧
      (fifo_process (run s0 pre) w).ready_out = false) ∧
    ((run (fifo_process (run s0 pre) w) hold).valid_out = true ∧
      (run (fifo_process (run s0 pre) w) hold).data_out = w.data_in ∧
      (run (fifo_process (run s0 pre) w) hold).ready_out = false) ∧
    (read_accepted (run (fifo_process (run s0 pre) w) hold) r = true ∧
      (run (fifo_process (run s0 pre) w) hold)._data
        (run (fifo_process (run s0 pre) w) hold)._first = w.data_in ∧
      (fifo_process (run (fifo_process (run s0 pre) w) hold) r)._items = 0 ∧
      (fifo_process (run (fifo_process (run s0 pre) w) hold) r).valid_out = false ∧
      (fifo_process (run (fifo_process (run s0 pre) w) hold) r).ready_out = true) := by
  have hI := Inv_run pre s0 (Inv_ctor (show 1 < UINT_RANGE by decide) hc)
  have hz : (run s0 pre)._size = 1 := by
    rw [run_size]
    obtain ⟨_, rfl⟩ := ctor_eq_some hc
    rfl
  generalize run s0 pre = s at hw hI hz
  have hf : s._first = 0 := by have := hI.2.2.1; omega
  have hv : w.valid_in = true ∧ s._items = 0 := by
    have := hw
    simp [write_accepted, hz] at this
    exact this
  have hra : read_accepted s w = false := by simp [read_accepted, hv.2]
  -- the accepting tick
  have hH : Holds (fifo_process s w) w.data_in := by
    have e1 : (fifo_process s w)._items = 1 := by
      rw [fifo_process_items s w hI, hw, hra, hv.2]; rfl
    have e2 : (fifo_process s w)._first = 0 := by
      rw [fifo_process_first s w hI, hra, hf]; rfl
    have e3 : (fifo_process s w)._size = 1 := by rw [fifo_process_size, hz]
    have e4 : (fifo_process s w)._data 0 = w.data_in := by
      rw [fifo_process_data, hw]
      simp [store, write_index, hz, Nat.mod_one]
    obtain ⟨o1, o2, o3⟩ := fifo_process_outputs s w
    refine ⟨e3, e2, e1, e4, ?_, ?_, ?_⟩
    · rw [o1, e1, e3]; rfl
    · rw [o2, e1]; rfl
    · rw [o3, e2, e4]
  have hH2 := Holds_run hold _ _ hH hh
  refine ⟨⟨hH.2.2.2.2.2.1, hH.2.2.2.2.2.2, hH.2.2.2.2.1⟩,
    ⟨hH2.2.2.2.2.2.1, hH2.2.2.2.2.2.2, hH2.2.2.2.2.1⟩, ?_⟩
  have hI2 := hH2.inv
  obtain ⟨g1, g2, g3, g4, _, _, _⟩ := hH2
  generalize run (fifo_process s w) hold = sH at hI2 g1 g2 g3 g4
  have hwr : write_accepted sH r = false := by simp [write_accepted, g1, g3]
  have hrr : read_accepted sH r = true := by simp [read_accepted, hr, g3]
  have e1 : (fifo_process sH r)._items = 0 := by
    rw [fifo_process_items sH r hI2, hwr, hrr, g3]; rfl
  have e3 : (fifo_process sH r)._size = 1 := by rw [fifo_process_size, g1]
  obtain ⟨o1, o2, _⟩ := fifo_process_outputs sH r
  refine ⟨hrr, by rw [g2, g4], e1, ?_, ?_⟩
  · rw [o2, e1]; rfl
  · rw [o1, e1, e3]; rfl

theorem single_register_witness :
    (hw_fifo.ctor 1 (fun _ => (0 : Int)) 0 = some fifo1 ∧
      write_accepted (run fifo1 []) ⟨true, 41, false⟩ = true) ∧
    ((run (fifo_process (run fifo1 []) ⟨true, 41, false⟩)
        [⟨true, 42, false⟩, ⟨false, 43, false⟩]).valid_out = true ∧
      (run (fifo_process (run fifo1 []) ⟨true, 41, false⟩)
        [⟨true, 42, false⟩, ⟨false, 43, false⟩]).data_out = 41 ∧
      (run (fifo_process (run fifo1 []) ⟨true, 41, false⟩)
        [⟨true, 42, false⟩, ⟨false, 43, false⟩]).ready_out = false) :=
  ⟨⟨rfl, by decide⟩,
   (single_register (fun _ => (0 : Int)) 0 fifo1 [] [⟨true, 42, false⟩, ⟨false, 43, false⟩]
      ⟨true, 41, false⟩ ⟨true, 44, true⟩ rfl (by decide) (by decide) rfl).2.1⟩

/-! ## FIFO order: capacities up to `2^31`, and the wrapping run -/

/-- For capacities up to `2^31` the accepted writes are the accepted reads followed by
the stored items, in order; in particular the reads are a prefix of the writes. -/
theorem fifo_order_of_small_capacity {T : Type} (size : Nat) (mem : Nat → T) (dout : T)
    (s0 : hw_fifo T) (ins : List (Inputs T)) (hsize : size ≤ NOWRAP_MAX)
    (hc : hw_fifo.ctor size mem dout = some s0) :
    accepted_writes s0 ins = accepted_reads s0 ins ++ contents (run s0 ins) ∧
    accepted_reads s0 ins <+: accepted_writes s0 ins := by
  have hU : size < UINT_RANGE := by unfold NOWRAP_MAX at hsize; unfold UINT_RANGE; omega
  have hI := Inv_ctor hU hc
  have hz : s0._size = size := by
    obtain ⟨_, rfl⟩ := ctor_eq_some hc
    rfl
  have h0 : contents s0 = [] := by
    obtain ⟨_, rfl⟩ := ctor_eq_some hc
    rfl
  have h := contents_run ins s0 hI (by rw [hz]; exact hsize)
  rw [h0, List.nil_append] at h
  exact ⟨h, ⟨_, h.symm⟩⟩

/-- For capacities up to `2^31` an accepted write uses a slot outside the occupied
range, so every stored item keeps its value through the tick. -/
theorem no_overwrite_of_small_capacity {T : Type} (s : hw_fifo T) (i : Inputs T)
    (hreach : Reachable s) (hsmall : s._size ≤ NOWRAP_MAX) (hw : write_accepted s i = true) :
    (∀ j, j < s._items → write_index s ≠ slot s j) ∧
    (∀ j, j < s._items → (fifo_process s i)._data (slot s j) = s._data (slot s j)) := by
  have hI := Inv_of_Reachable hreach
  have hlt : s._items < s._size := by
    have := hw; simp [write_accepted] at this; exact this.2
  obtain ⟨h0, h1, h2, h3⟩ := hI
  unfold NOWRAP_MAX at hsmall
  have hx := write_index_exact s (by unfold UINT_RANGE; omega)
  have hne : ∀ j, j < s._items → write_index s ≠ slot s j := by
    intro j hj
    rw [hx]
    exact fun e => mod_add_ne hj (by omega) e.symm
  refine ⟨hne, ?_⟩
  intro j hj
  rw [fifo_process_data, hw, if_pos rfl]
  unfold store
  rw [if_neg (fun e => hne j hj e.symm)]

/-- Without an accepted read the head stays and the count does not decrease: an item
leaves the occupied range only through an accepted read of the head. -/
theorem occupied_range_kept_without_read {T : Type} (s : hw_fifo T) (i : Inputs T)
    (hreach : Reachable s) (hr : read_accepted s i = false) :
    (fifo_process s i)._first = s._first ∧ s._items ≤ (fifo_process s i)._items := by
  have hI := Inv_of_Reachable hreach
  rw [fifo_process_first s i hI, fifo_process_items s i hI, hr]
  simp

/-- For capacities up to `2^31`, after every tick `data_out` is the slot at the updated
head, and when the updated count is positive it is the oldest accepted write that no
accepted read has consumed. -/
theorem data_out_oldest_of_small_capacity {T : Type} (size : Nat) (mem : Nat → T) (dout : T)
    (s0 : hw_fifo T) (ins : List (Inputs T)) (i : Inputs T) (hsize : size ≤ NOWRAP_MAX)
    (hc : hw_fifo.ctor size mem dout = some s0) :
    (run s0 (ins ++ [i])).data_out = (run s0 (ins ++ [i]))._data (run s0 (ins ++ [i]))._first ∧
    (0 < (run s0 (ins ++ [i]))._items →
      (pending s0 (ins ++ [i])).head? = some (run s0 (ins ++ [i])).data_out) := by
  have hU : size < UINT_RANGE := by unfold NOWRAP_MAX at hsize; unfold UINT_RANGE; omega
  have hI := Inv_run (ins ++ [i]) s0 (Inv_ctor hU hc)
  have hord := (fifo_order_of_small_capacity size mem dout s0 (ins ++ [i]) hsize hc).1
  have hout : (run s0 (ins ++ [i])).data_out =
      (run s0 (ins ++ [i]))._data (run s0 (ins ++ [i]))._first := by
    rw [run_append, run_single]
    exact (fifo_process_outputs _ i).2.2
  refine ⟨hout, ?_⟩
  intro hpos
  unfold pending
  rw [hord, List.drop_left, hout, contents_eq,
    contentsOf_pop _ _ _ _ hpos hI.2.2.1]
  rfl

/-- For capacities up to `2^31` the index of the store of line 130 is the exact
`(head + count) mod capacity`. -/
theorem write_index_exact_of_small_capacity {T : Type} (s : hw_fifo T)
    (hsize : s._size ≤ NOWRAP_MAX) (hf : s._first < s._size) (hi : s._items < s._size) :
    write_index s = (s._first + s._items) % s._size := by
  unfold NOWRAP_MAX at hsize
  exact write_index_exact s (by unfold UINT_RANGE; omega)

/-- C1 (fails on the code): capacity 4294967295, zeroed memory; one write of 0, then
4294967294 ticks that each write 0 and read, then a write of 1 and a write of 2.  All
writes and reads are accepted, so the accepted writes are 4294967295 zeros followed by
1, 2 and the accepted reads are 4294967294 zeros; but the three stored items read from
the head are 0, 2, 0, so the accepted writes are not the accepted reads followed by the
stored items: the value 1 is lost. -/
theorem fifo_order_fails_on_wrap :
    hw_fifo.ctor 4294967295 (fun _ => (0 : Int)) 0 = some big_fifo ∧
    accepted_writes big_fifo (wrap_ticks 4294967294) =
      List.replicate (4294967294 + 1) 0 ++ [1, 2] ∧
    accepted_reads big_fifo (wrap_ticks 4294967294) = List.replicate 4294967294 0 ∧
    contents (run big_fifo (wrap_ticks 4294967294)) = [0, 2, 0] ∧
    accepted_writes big_fifo (wrap_ticks 4294967294) ≠
      accepted_reads big_fifo (wrap_ticks 4294967294) ++
        contents (run big_fifo (wrap_ticks 4294967294)) :=
  ⟨rfl, (wrap_ticks_state 4294967294 (by decide)).2.2.2.2.2.1,
   (wrap_ticks_state 4294967294 (by decide)).2.2.2.2.2.2,
   (wrap_ticks_order 4294967294 (by decide)).1, (wrap_ticks_order 4294967294 (by decide)).2⟩

/-- C5 (fails on the code): in the state reached with capacity 4294967295 by
`wrap_fill 4294967294` (head 4294967294, count 2), a tick that writes 2 and does not
read has its write accepted; the slot written is the second occupied slot (slot 0),
which held the unread value 1 and holds 2 afterwards. -/
theorem write_overwrites_unread_on_wrap :
    Reachable (run big_fifo (wrap_fill 4294967294)) ∧
    write_accepted (run big_fifo (wrap_fill 4294967294)) ⟨true, 2, false⟩ = true ∧
    read_accepted (run big_fifo (wrap_fill 4294967294)) ⟨true, 2, false⟩ = false ∧
    1 < (run big_fifo (wrap_fill 4294967294))._items ∧
    write_index (run big_fifo (wrap_fill 4294967294)) =
      slot (run big_fifo (wrap_fill 4294967294)) 1 ∧
    (run big_fifo (wrap_fill 4294967294))._data
      (slot (run big_fifo (wrap_fill 4294967294)) 1) = 1 ∧
    (fifo_process (run big_fifo (wrap_fill 4294967294)) ⟨true, 2, false⟩)._data
      (slot (run big_fifo (wrap_fill 4294967294)) 1) = 2 :=
  ⟨⟨4294967295, fun _ => 0, 0, big_fifo, wrap_fill 4294967294, by decide, rfl, rfl⟩,
   wrap_fill_overwrite 4294967294 (by decide)⟩

/-- C9 (fails on the code): after the run of C1 on capacity 4294967295 followed by one
read, the count is positive and `data_out`, the slot at the updated head, is 2, while
the accepted writes not yet read are 1, 2: the oldest one is 1. -/
theorem data_out_not_oldest_on_wrap :
    hw_fifo.ctor 4294967295 (fun _ => (0 : Int)) 0 = some big_fifo ∧
    0 < (run big_fifo (wrap_read_ticks 4294967294))._items ∧
    (run big_fifo (wrap_read_ticks 4294967294)).data_out = 2 ∧
    (run big_fifo (wrap_read_ticks 4294967294)).data_out =
      (run big_fifo (wrap_read_ticks 4294967294))._data
        (run big_fifo (wrap_read_ticks 4294967294))._first ∧
    pending big_fifo (wrap_read_ticks 4294967294) = [1, 2] :=
  ⟨rfl, wrap_read_head 4294967294 (by decide)⟩

/-- C10 (fails on the code): with capacity 4294967295, head 4294967294 and count 2
(both below the capacity) the index computed with 32-bit wraparound is 0, whereas the
exact `(head + count) mod capacity` is 1. -/
theorem write_index_differs_on_wrap :
    wrapped_state._first < wrapped_state._size ∧
    wrapped_state._items < wrapped_state._size ∧
    wrapped_state._size < UINT_RANGE ∧
    write_index wrapped_state = 0 ∧
    (wrapped_state._first + wrapped_state._items) % wrapped_state._size = 1 := by
  decide

end HwFifo
